import Mathlib

/-!
Verification of the borders guessing game (pierd/borders).

The development shallowly embeds the TypeScript sources:

  * `src/hooks/useBordersGame.ts` — the game state machine (two copies of the
    hook appear in the repository; the fuller one additionally tracks
    `showOutlines` and `namesHintLevel`, and its `makeGuess` is otherwise
    identical, so the embedding uses the fuller record).  JavaScript
    `toLowerCase` is embedded by `lowerStr` (ASCII lowering, the same mapping
    as core `String.toLower` but kernel-computable; every character the
    catalog upper-cases is ASCII).
  * `src/hooks/useCountryTranslation.ts` — the Fuse-based country matcher.
    Fuse.js itself is a third-party collaborator, so the fuzzy engine is a
    parameter of the embedded `searchCountries`; the options object passed to
    it is embedded literally.
  * `src/components/CountryMap.tsx` and the App component — the
    equirectangular projection with antimeridian correction, the name-hint
    masking, and the discrete zoom factor.  All JavaScript numbers that stay
    dyadic (zoom levels) or whose claims are exact-arithmetic statements
    (projection) are embedded as rationals.
  * The linear-congruential generator `seededRandom` multiplies a wall-clock
    seed by 1103515245; for realistic seeds this product exceeds 2^53, so the
    IEEE-754 double rounding that JavaScript applies to `seed * 1103515245`
    and to the subsequent `+ 12345` is modelled explicitly by `fl` (round to
    nearest, ties to even, at 53 significant bits — exact on integers below
    2^53, and the arguments here stay far below the overflow threshold 2^1024).
    The `& 0x7fffffff` (ToInt32 followed by masking with 0x7fffffff) keeps the
    low 31 bits of the integer value, i.e. reduction modulo 2^31.  The final
    division `seed / 0x7fffffff` and the later `Math.floor(random() * length)`
    are embedded as exact rational arithmetic: the quantities they separate
    are at distance at least 2^-31 from the relevant integer boundaries, many
    orders of magnitude above the 2^-53 relative rounding error, so rounding
    those two operations cannot move any comparison or floor in the claims.
-/

/-- Modelled from the spec: `GAME_CONFIG.maxWrongAttempts` lives in
`src/types/game.ts`, which is not part of the provided sources; the spec and
the README both fix the number of allowed wrong guesses at 6. -/
def maxWrongAttempts : Nat := 6

/-- The letter-lowering `toLowerCase` applies to the ASCII range (the only
case distinction appearing in the catalog names): `A`-`Z` shift by 32, every
other character is unchanged. -/
def lowerChar (c : Char) : Char :=
  if 65 ≤ c.toNat ∧ c.toNat ≤ 90 then Char.ofNat (c.toNat + 32) else c

/-- Embedding of JavaScript `toLowerCase` on catalog strings. -/
def lowerStr (s : String) : String :=
  ⟨s.data.map lowerChar⟩

/-- A catalog entry: canonical name and the list of bordering country names
(`src/data/countries.ts`, data not included in the sources; the record shape
is from the `Country` type used by the hook). -/
structure Country where
  name : String
  borders : List String
deriving Repr, DecidableEq

/-- One submitted guess (`Guess` in `useBordersGame.ts`). -/
structure Guess where
  countryName : String
  isCorrect : Bool
deriving Repr, DecidableEq

/-- The game state (`GameState` in `useBordersGame.ts`; the repository's
fuller copy of the hook also tracks `showOutlines` and `namesHintLevel`). -/
structure GameState where
  currentCountry : Country
  guesses : List Guess
  correctGuesses : List String
  wrongGuesses : Nat
  gameOver : Bool
  won : Bool
  showOutlines : Bool
  namesHintLevel : Nat
deriving Repr, DecidableEq

/-- The state `startGame` installs once a country has been drawn. -/
def initState (c : Country) : GameState :=
  { currentCountry := c
    guesses := []
    correctGuesses := []
    wrongGuesses := 0
    gameOver := false
    won := false
    showOutlines := false
    namesHintLevel := 0 }

/-- The case-insensitive membership test of a guess in the target's borders:
`currentCountry.borders.map(b => b.toLowerCase()).includes(countryName.toLowerCase())`. -/
def borderMatch (s : GameState) (countryName : String) : Bool :=
  (s.currentCountry.borders.map lowerStr).contains (lowerStr countryName)

/-- The duplicate-guess test:
`gameState.guesses.some(g => g.countryName.toLowerCase() === countryName.toLowerCase())`. -/
def alreadyGuessed (s : GameState) (countryName : String) : Bool :=
  s.guesses.any (fun g => lowerStr g.countryName == lowerStr countryName)

/-- The self-guess test:
`countryName.toLowerCase() === gameState.currentCountry.name.toLowerCase()`. -/
def selfGuess (s : GameState) (countryName : String) : Bool :=
  lowerStr countryName == lowerStr s.currentCountry.name

/-- Embedding of `makeGuess` from `useBordersGame.ts` (lines 51-94): the three
early returns, then the append-and-recompute update. -/
def makeGuess (s : GameState) (countryName : String) : GameState :=
  if s.gameOver then s
  else if alreadyGuessed s countryName then s
  else if selfGuess s countryName then s
  else
    let isCorrect := borderMatch s countryName
    let newGuesses := s.guesses ++ [{ countryName := countryName, isCorrect := isCorrect }]
    let newCorrectGuesses :=
      if isCorrect then s.correctGuesses ++ [countryName] else s.correctGuesses
    let newWrongGuesses := if isCorrect then s.wrongGuesses else s.wrongGuesses + 1
    let allBordersFound := s.currentCountry.borders.all
      (fun border => newCorrectGuesses.any (fun g => lowerStr g == lowerStr border))
    let maxWrongReached : Bool := decide (maxWrongAttempts ≤ newWrongGuesses)
    { s with
      guesses := newGuesses
      correctGuesses := newCorrectGuesses
      wrongGuesses := newWrongGuesses
      gameOver := allBordersFound || maxWrongReached
      won := allBordersFound }

/-- Border coverage of a state: every border has a case-insensitive match
among the correct guesses (the `allBordersFound` recomputation applied to a
state). -/
def bordersCovered (s : GameState) : Bool :=
  s.currentCountry.borders.all
    (fun border => s.correctGuesses.any (fun g => lowerStr g == lowerStr border))

/-- Embedding of `showNamesHint` from the fuller copy of the hook. -/
def showNamesHint (s : GameState) : GameState :=
  if s.gameOver then s
  else if 3 ≤ s.namesHintLevel then s
  else { s with namesHintLevel := s.namesHintLevel + 1 }

/-- States reachable from a fresh round on country `c` by submitting any
sequence of guesses. -/
def reachableFrom (c : Country) (s : GameState) : Prop :=
  ∃ l : List String, s = l.foldl makeGuess (initState c)

lemma reachable_init (c : Country) : reachableFrom c (initState c) :=
  ⟨[], rfl⟩

lemma reachable_pres {c : Country} (P : GameState → Prop)
    (h0 : P (initState c)) (hstep : ∀ t n, P t → P (makeGuess t n)) :
    ∀ {s : GameState}, reachableFrom c s → P s := by
  have main : ∀ (l : List String) (t : GameState), P t → P (l.foldl makeGuess t) := by
    intro l
    induction l with
    | nil => intro t ht; simpa using ht
    | cons n l ih =>
        intro t ht
        simpa using ih (makeGuess t n) (hstep t n ht)
  rintro s ⟨l, rfl⟩
  exact main l _ h0

/-- In the non-rejected branch, `makeGuess` is the literal update. -/
lemma makeGuess_accepted {s : GameState} {n : String}
    (hgo : s.gameOver = false) (hdup : alreadyGuessed s n = false)
    (hself : selfGuess s n = false) :
    makeGuess s n =
      { s with
        guesses := s.guesses ++ [{ countryName := n, isCorrect := borderMatch s n }]
        correctGuesses :=
          if borderMatch s n then s.correctGuesses ++ [n] else s.correctGuesses
        wrongGuesses := if borderMatch s n then s.wrongGuesses else s.wrongGuesses + 1
        gameOver :=
          (s.currentCountry.borders.all (fun border =>
            (if borderMatch s n then s.correctGuesses ++ [n] else s.correctGuesses).any
              (fun g => lowerStr g == lowerStr border))) ||
          decide (maxWrongAttempts ≤
            if borderMatch s n then s.wrongGuesses else s.wrongGuesses + 1)
        won :=
          s.currentCountry.borders.all (fun border =>
            (if borderMatch s n then s.correctGuesses ++ [n] else s.correctGuesses).any
              (fun g => lowerStr g == lowerStr border)) } := by
  simp [makeGuess, hgo, hdup, hself]

/-- The fields untouched by a guess. -/
lemma makeGuess_currentCountry (s : GameState) (n : String) :
    (makeGuess s n).currentCountry = s.currentCountry := by
  by_cases hgo : s.gameOver <;> by_cases hdup : alreadyGuessed s n <;>
    by_cases hself : selfGuess s n <;> simp [makeGuess, hgo, hdup, hself]

/-- A guess never lowers the wrong-guess count and raises it at most by one. -/
lemma makeGuess_wrong_le (s : GameState) (n : String) :
    s.wrongGuesses ≤ (makeGuess s n).wrongGuesses ∧
      (makeGuess s n).wrongGuesses ≤ s.wrongGuesses + 1 := by
  by_cases hgo : s.gameOver <;> by_cases hdup : alreadyGuessed s n <;>
    by_cases hself : selfGuess s n <;>
      simp only [makeGuess, hgo, hdup, hself, if_true, if_false,
        Bool.false_eq_true, Bool.true_eq_false] <;>
    first
    | simp
    | (constructor <;> split <;> simp)

/-- The wrong-guess counter invariant: it never passes `maxWrongAttempts`,
and while the game is running it is strictly below it. -/
def wrongInv (s : GameState) : Prop :=
  s.wrongGuesses ≤ maxWrongAttempts ∧
    (s.gameOver = false → s.wrongGuesses < maxWrongAttempts)

lemma wrongInv_init (c : Country) : wrongInv (initState c) := by
  simp [wrongInv, initState, maxWrongAttempts]

lemma wrongInv_step (s : GameState) (n : String) (h : wrongInv s) :
    wrongInv (makeGuess s n) := by
  by_cases hgo : s.gameOver
  · simpa [makeGuess, hgo] using h
  · by_cases hdup : alreadyGuessed s n
    · simpa [makeGuess, hgo, hdup] using h
    · by_cases hself : selfGuess s n
      · simpa [makeGuess, hgo, hdup, hself] using h
      · have hlt := h.2 (by simpa using hgo)
        rw [makeGuess_accepted (by simpa using hgo) (by simpa using hdup)
          (by simpa using hself)]
        constructor
        · simp only []
          split <;> omega
        · intro hgo'
          simp only [Bool.or_eq_false_iff, decide_eq_false_iff_not, not_le] at hgo'
          exact hgo'.2

lemma wrongInv_reachable {c : Country} {s : GameState}
    (hr : reachableFrom c s) : wrongInv s :=
  reachable_pres wrongInv (wrongInv_init c) (fun t n ht => wrongInv_step t n ht) hr

lemma accepted_won_eq {s : GameState} {n : String}
    (hgo : s.gameOver = false) (hdup : alreadyGuessed s n = false)
    (hself : selfGuess s n = false) :
    (makeGuess s n).won = bordersCovered (makeGuess s n) := by
  rw [makeGuess_accepted hgo hdup hself]
  simp [bordersCovered]

lemma accepted_gameOver_eq {s : GameState} {n : String}
    (hgo : s.gameOver = false) (hdup : alreadyGuessed s n = false)
    (hself : selfGuess s n = false) :
    (makeGuess s n).gameOver =
      (bordersCovered (makeGuess s n) ||
        decide (maxWrongAttempts ≤ (makeGuess s n).wrongGuesses)) := by
  rw [makeGuess_accepted hgo hdup hself]
  simp [bordersCovered]

/-- C1.  After every accepted guess, `gameOver` is true exactly when the
wrong-guess count has reached `maxWrongAttempts` (= 6) or every border is
case-insensitively covered by `correctGuesses`; `won` is true exactly in the
coverage case; and in every reachable state `wrongGuesses` never exceeds
`maxWrongAttempts`. -/
theorem game_over_iff_exhausted_or_covered
    (c : Country) (s : GameState) (n : String)
    (hr : reachableFrom c s) (hgo : s.gameOver = false)
    (hdup : alreadyGuessed s n = false) (hself : selfGuess s n = false) :
    ((makeGuess s n).gameOver = true ↔
        ((makeGuess s n).wrongGuesses = maxWrongAttempts ∨
          bordersCovered (makeGuess s n) = true)) ∧
      ((makeGuess s n).won = true ↔ bordersCovered (makeGuess s n) = true) ∧
      maxWrongAttempts = 6 ∧
      (∀ s', reachableFrom c s' → s'.wrongGuesses ≤ maxWrongAttempts) := by
  have hwle : (makeGuess s n).wrongGuesses ≤ maxWrongAttempts := by
    have h1 := (wrongInv_reachable hr).2 hgo
    have h2 := (makeGuess_wrong_le s n).2
    omega
  refine ⟨?_, ?_, rfl, ?_⟩
  · rw [accepted_gameOver_eq hgo hdup hself]
    simp only [Bool.or_eq_true, decide_eq_true_eq]
    constructor
    · rintro (hcov | hexh)
      · exact Or.inr hcov
      · exact Or.inl (le_antisymm hwle hexh)
    · rintro (hexh | hcov)
      · exact Or.inr (le_of_eq hexh.symm)
      · exact Or.inl hcov
  · rw [accepted_won_eq hgo hdup hself]
  · intro s' hr'
    exact (wrongInv_reachable hr').1

/-- C1 witness: a concrete accepted guess on a fresh France round. -/
theorem game_over_iff_exhausted_or_covered_witness :
    let france : Country :=
      { name := "France"
        borders := ["Belgium", "Germany", "Italy", "Luxembourg", "Monaco",
                    "Spain", "Switzerland"] }
    ((makeGuess (initState france) "Belgium").gameOver = true ↔
        ((makeGuess (initState france) "Belgium").wrongGuesses = maxWrongAttempts ∨
          bordersCovered (makeGuess (initState france) "Belgium") = true)) ∧
      ((makeGuess (initState france) "Belgium").won = true ↔
        bordersCovered (makeGuess (initState france) "Belgium") = true) ∧
      maxWrongAttempts = 6 ∧
      (∀ s', reachableFrom france s' → s'.wrongGuesses ≤ maxWrongAttempts) :=
  game_over_iff_exhausted_or_covered _ _ "Belgium" (reachable_init _)
    (by decide) (by decide) (by decide)

lemma alreadyGuessed_congr {n n' : String} (s : GameState)
    (h : lowerStr n' = lowerStr n) : alreadyGuessed s n' = alreadyGuessed s n := by
  simp [alreadyGuessed, h]

lemma selfGuess_congr {n n' : String} (s : GameState)
    (h : lowerStr n' = lowerStr n) : selfGuess s n' = selfGuess s n := by
  simp [selfGuess, h]

lemma makeGuess_noop_gameOver {t : GameState} (m : String)
    (h : t.gameOver = true) : makeGuess t m = t := by
  simp [makeGuess, h]

lemma makeGuess_noop_dup {t : GameState} {m : String}
    (h : alreadyGuessed t m = true) : makeGuess t m = t := by
  by_cases hgo : t.gameOver <;> simp [makeGuess, hgo, h]

lemma makeGuess_noop_self {t : GameState} {m : String}
    (h : selfGuess t m = true) : makeGuess t m = t := by
  by_cases hgo : t.gameOver
  · simp [makeGuess, hgo]
  · by_cases hdup : alreadyGuessed t m <;> simp [makeGuess, hgo, hdup, h]

/-- C2.  `makeGuess` is a strict no-op when the game is over, when the name
was already guessed (case-insensitively), or when the name is the target
country itself (case-insensitively); and repeating a name, in any case, never
changes the state the second time. -/
theorem guess_noop_cases (s : GameState) (n n' : String) :
    (s.gameOver = true → makeGuess s n = s) ∧
      (alreadyGuessed s n = true → makeGuess s n = s) ∧
      (selfGuess s n = true → makeGuess s n = s) ∧
      (lowerStr n' = lowerStr n → makeGuess (makeGuess s n) n' = makeGuess s n) := by
  refine ⟨fun h => makeGuess_noop_gameOver n h, fun h => makeGuess_noop_dup h,
    fun h => makeGuess_noop_self h, fun h => ?_⟩
  by_cases hgo : s.gameOver
  · rw [makeGuess_noop_gameOver n hgo, makeGuess_noop_gameOver n' hgo]
  · by_cases hdup : alreadyGuessed s n
    · rw [makeGuess_noop_dup hdup,
        makeGuess_noop_dup (by rw [alreadyGuessed_congr s h]; exact hdup)]
    · by_cases hself : selfGuess s n
      · rw [makeGuess_noop_self hself,
          makeGuess_noop_self (by rw [selfGuess_congr s h]; exact hself)]
      · by_cases hgo2 : (makeGuess s n).gameOver
        · exact makeGuess_noop_gameOver n' hgo2
        · refine makeGuess_noop_dup ?_
          rw [makeGuess_accepted (by simpa using hgo) (by simpa using hdup)
            (by simpa using hself)]
          simp [alreadyGuessed, h]

/-- C2 witness: re-guessing Belgium (upper-cased) after a correct Belgium
guess leaves the state untouched. -/
theorem guess_noop_cases_witness :
    makeGuess
        (makeGuess
          (initState
            { name := "France"
              borders := ["Belgium", "Germany", "Italy", "Luxembourg", "Monaco",
                          "Spain", "Switzerland"] })
          "Belgium")
        "BELGIUM" =
      makeGuess
        (initState
          { name := "France"
            borders := ["Belgium", "Germany", "Italy", "Luxembourg", "Monaco",
                        "Spain", "Switzerland"] })
        "Belgium" :=
  (guess_noop_cases _ "Belgium" "BELGIUM").2.2.2 (by decide)

/-- C3.  An accepted guess appends exactly one `Guess` to the log; a
case-insensitive border member is appended, as typed, to `correctGuesses`
with `wrongGuesses` unchanged, and any other text increments `wrongGuesses`
by exactly one with `correctGuesses` unchanged. -/
theorem accepted_guess_effects (s : GameState) (n : String)
    (hgo : s.gameOver = false) (hdup : alreadyGuessed s n = false)
    (hself : selfGuess s n = false) :
    (makeGuess s n).guesses =
        s.guesses ++ [{ countryName := n, isCorrect := borderMatch s n }] ∧
      (borderMatch s n = true →
        (makeGuess s n).correctGuesses = s.correctGuesses ++ [n] ∧
          (makeGuess s n).wrongGuesses = s.wrongGuesses) ∧
      (borderMatch s n = false →
        (makeGuess s n).wrongGuesses = s.wrongGuesses + 1 ∧
          (makeGuess s n).correctGuesses = s.correctGuesses) := by
  rw [makeGuess_accepted hgo hdup hself]
  exact ⟨rfl, fun h => by simp [h], fun h => by simp [h]⟩

/-- C3 witness: a correct guess (Belgium) and a wrong guess (Japan) on a
fresh France round. -/
theorem accepted_guess_effects_witness :
    ((makeGuess
          (initState
            { name := "France"
              borders := ["Belgium", "Germany", "Italy", "Luxembourg", "Monaco",
                          "Spain", "Switzerland"] })
          "Belgium").correctGuesses = [] ++ ["Belgium"] ∧
        (makeGuess
          (initState
            { name := "France"
              borders := ["Belgium", "Germany", "Italy", "Luxembourg", "Monaco",
                          "Spain", "Switzerland"] })
          "Belgium").wrongGuesses = 0) ∧
      ((makeGuess
          (initState
            { name := "France"
              borders := ["Belgium", "Germany", "Italy", "Luxembourg", "Monaco",
                          "Spain", "Switzerland"] })
          "Japan").wrongGuesses = 0 + 1 ∧
        (makeGuess
          (initState
            { name := "France"
              borders := ["Belgium", "Germany", "Italy", "Luxembourg", "Monaco",
                          "Spain", "Switzerland"] })
          "Japan").correctGuesses = []) :=
  ⟨(accepted_guess_effects _ "Belgium" (by decide) (by decide) (by decide)).2.1
      (by decide),
    (accepted_guess_effects _ "Japan" (by decide) (by decide) (by decide)).2.2
      (by decide)⟩

/-- Case-insensitive pairwise distinctness. -/
def distinctCI (l : List String) : Prop :=
  l.Pairwise (fun a b => lowerStr a ≠ lowerStr b)

/-- The bookkeeping invariant of the state machine used for C4. -/
def gameInv (s : GameState) : Prop :=
  s.correctGuesses.length + s.wrongGuesses = s.guesses.length ∧
    distinctCI (s.guesses.map Guess.countryName) ∧
    (∀ g ∈ s.correctGuesses,
      ∃ b ∈ s.currentCountry.borders, lowerStr g = lowerStr b) ∧
    (∀ g ∈ s.correctGuesses,
      ∃ q ∈ s.guesses, lowerStr q.countryName = lowerStr g) ∧
    distinctCI s.correctGuesses

lemma gameInv_init (c : Country) : gameInv (initState c) := by
  simp [gameInv, initState, distinctCI]

lemma gameInv_step (s : GameState) (n : String) (h : gameInv s) :
    gameInv (makeGuess s n) := by
  by_cases hgo : s.gameOver
  · simpa [makeGuess, hgo] using h
  · by_cases hdup : alreadyGuessed s n
    · simpa [makeGuess, hgo, hdup] using h
    · by_cases hself : selfGuess s n
      · simpa [makeGuess, hgo, hdup, hself] using h
      · obtain ⟨hlen, hgd, hsub, hcg, hcd⟩ := h
        have hdup' : ∀ g ∈ s.guesses, lowerStr g.countryName ≠ lowerStr n := by
          have hf : alreadyGuessed s n = false := by simpa using hdup
          simpa [alreadyGuessed, List.any_eq_false] using hf
        rw [makeGuess_accepted (by simpa using hgo) (by simpa using hdup)
          (by simpa using hself)]
        refine ⟨?_, ?_, ?_, ?_, ?_⟩
        · by_cases hbm : borderMatch s n <;> simp [hbm] <;> omega
        · simp only [List.map_append, List.map_cons, List.map_nil]
          rw [distinctCI, List.pairwise_append]
          refine ⟨hgd, List.pairwise_singleton _ _, ?_⟩
          intro a ha b hb
          simp only [List.mem_singleton] at hb
          subst hb
          obtain ⟨g, hg, rfl⟩ := List.mem_map.mp ha
          exact hdup' g hg
        · by_cases hbm : borderMatch s n
          · simp only [hbm, if_true]
            intro g hg
            rcases List.mem_append.mp hg with hold | hnew
            · exact hsub g hold
            · simp only [List.mem_singleton] at hnew
              subst hnew
              have : lowerStr g ∈ s.currentCountry.borders.map lowerStr := by
                simpa [borderMatch] using hbm
              obtain ⟨b, hb, hbeq⟩ := List.mem_map.mp this
              exact ⟨b, hb, hbeq.symm⟩
          · simp only [hbm, if_false]
            exact hsub
        · by_cases hbm : borderMatch s n
          · simp only [hbm, if_true]
            intro g hg
            rcases List.mem_append.mp hg with hold | hnew
            · obtain ⟨q, hq, hqe⟩ := hcg g hold
              exact ⟨q, List.mem_append.mpr (Or.inl hq), hqe⟩
            · simp only [List.mem_singleton] at hnew
              subst hnew
              exact ⟨_, List.mem_append.mpr (Or.inr (List.mem_singleton.mpr rfl)), rfl⟩
          · simp only [hbm, if_false]
            intro g hg
            obtain ⟨q, hq, hqe⟩ := hcg g hg
            exact ⟨q, List.mem_append.mpr (Or.inl hq), hqe⟩
        · by_cases hbm : borderMatch s n
          · simp only [hbm, if_true]
            rw [distinctCI, List.pairwise_append]
            refine ⟨hcd, List.pairwise_singleton _ _, ?_⟩
            intro a ha b hb
            simp only [List.mem_singleton] at hb
            subst hb
            obtain ⟨q, hq, hqe⟩ := hcg a ha
            rw [← hqe]
            exact hdup' q hq
          · simpa [hbm] using hcd

/-- C4.  In every reachable state, the number of correct guesses plus the
wrong-guess count equals the length of the guess log, the logged names are
pairwise case-insensitively distinct, and `correctGuesses` is a
case-insensitive duplicate-free subset of the target's borders. -/
theorem reachable_state_bookkeeping (c : Country) (s : GameState)
    (hr : reachableFrom c s) :
    s.correctGuesses.length + s.wrongGuesses = s.guesses.length ∧
      distinctCI (s.guesses.map Guess.countryName) ∧
      (∀ g ∈ s.correctGuesses,
        ∃ b ∈ s.currentCountry.borders, lowerStr g = lowerStr b) ∧
      distinctCI s.correctGuesses := by
  have h := reachable_pres gameInv (gameInv_init c) (fun t n ht => gameInv_step t n ht) hr
  exact ⟨h.1, h.2.1, h.2.2.1, h.2.2.2.2⟩

/-- C4 witness: the state after guessing Belgium then Japan on a France
round. -/
theorem reachable_state_bookkeeping_witness :
    let france : Country :=
      { name := "France"
        borders := ["Belgium", "Germany", "Italy", "Luxembourg", "Monaco",
                    "Spain", "Switzerland"] }
    let s := makeGuess (makeGuess (initState france) "Belgium") "Japan"
    s.correctGuesses.length + s.wrongGuesses = s.guesses.length ∧
      distinctCI (s.guesses.map Guess.countryName) ∧
      (∀ g ∈ s.correctGuesses,
        ∃ b ∈ s.currentCountry.borders, lowerStr g = lowerStr b) ∧
      distinctCI s.correctGuesses := by
  exact reachable_state_bookkeeping
    { name := "France"
      borders := ["Belgium", "Germany", "Italy", "Luxembourg", "Monaco",
                  "Spain", "Switzerland"] }
    _ ⟨["Belgium", "Japan"], rfl⟩

/-- The character class `[a-zA-ZÀ-ɏ]` of the hint-masking regex in
the App component. -/
def isHintLetter (c : Char) : Bool :=
  decide ((97 ≤ c.toNat ∧ c.toNat ≤ 122) ∨ (65 ≤ c.toNat ∧ c.toNat ≤ 90) ∨
    (192 ≤ c.toNat ∧ c.toNat ≤ 591))

/-- One character of `replace(/[a-zA-ZÀ-ɏ]/g, '_')`. -/
def maskHintChar (c : Char) : Char :=
  if isHintLetter c then '_' else c

/-- Embedding of `formatNameHint` from the App component: keep the first
`lettersToShow` characters of the translated name and mask the alphabetic
remainder character for character.  The translator is the localization
collaborator, passed as a parameter. -/
def formatNameHint (translate : String → String) (name : String)
    (lettersToShow : Nat) : String :=
  let translatedName := translate name
  if translatedName.length ≤ lettersToShow then translatedName
  else
    ⟨translatedName.data.take lettersToShow ++
      (translatedName.data.drop lettersToShow).map maskHintChar⟩

/-- Modelled from the spec: the localization collaborator (i18n resources,
not part of the provided sources) "falls back to the canonical name if
untranslated", and the canonical catalog names are the English display
names, so the locale-"en" translator maps every name to itself. -/
def translateCountryEn : String → String := fun name => name

/-- C9.  At hint level `n ∈ [1,3]` the hint string keeps the first `n`
characters, masks exactly the alphabetic remainder character for character
(non-alphabetic characters stay visible), and preserves the length;
`showNamesHint` is a no-op at level 3 or after game over and raises the
level 0 → 1 otherwise; the missing border "Spain" in locale "en" masks to
`"S____"` after one hint. -/
theorem names_hint_masking :
    (∀ (translate : String → String) (name : String) (n : Nat),
      1 ≤ n → n ≤ 3 → n < (translate name).length →
        (formatNameHint translate name n).data =
            (translate name).data.take n ++
              ((translate name).data.drop n).map maskHintChar ∧
          (formatNameHint translate name n).length = (translate name).length ∧
          (∀ ch ∈ (translate name).data.drop n,
            isHintLetter ch = false → maskHintChar ch = ch) ∧
          (∀ ch ∈ (translate name).data.drop n,
            isHintLetter ch = true → maskHintChar ch = '_')) ∧
      (∀ s : GameState,
        (s.gameOver = true → showNamesHint s = s) ∧
          (3 ≤ s.namesHintLevel → showNamesHint s = s) ∧
          (s.gameOver = false → s.namesHintLevel = 0 →
            (showNamesHint s).namesHintLevel = 1)) ∧
      formatNameHint translateCountryEn "Spain" 1 = "S____" := by
  refine ⟨?_, ?_, by decide⟩
  · intro translate name n h1 h3 hlen
    have hcond : ¬ ((translate name).length ≤ n) := by omega
    have hdata : (formatNameHint translate name n).data =
        (translate name).data.take n ++
          ((translate name).data.drop n).map maskHintChar := by
      rw [formatNameHint]
      simp only [hcond, if_false]
    refine ⟨hdata, ?_, ?_, ?_⟩
    · have hl : (translate name).length = (translate name).data.length := rfl
      have : (formatNameHint translate name n).length =
          (formatNameHint translate name n).data.length := rfl
      rw [this, hdata]
      simp only [List.length_append, List.length_take, List.length_map,
        List.length_drop]
      rw [hl] at hlen ⊢
      omega
    · intro ch _ hch
      simp [maskHintChar, hch]
    · intro ch _ hch
      simp [maskHintChar, hch]
  · intro s
    refine ⟨fun h => by simp [showNamesHint, h], fun h => ?_, fun hgo h0 => ?_⟩
    · by_cases hgo : s.gameOver <;> simp [showNamesHint, hgo, h]
    · simp [showNamesHint, hgo, h0]

/-- C9 witness: the "Spain" example and a fresh state receiving one hint. -/
theorem names_hint_masking_witness :
    ((formatNameHint translateCountryEn "Spain" 1).data =
        (translateCountryEn "Spain").data.take 1 ++
          ((translateCountryEn "Spain").data.drop 1).map maskHintChar) ∧
      (showNamesHint (initState { name := "France", borders := [] })).namesHintLevel = 1 ∧
      formatNameHint translateCountryEn "Spain" 1 = "S____" :=
  ⟨(names_hint_masking.1 translateCountryEn "Spain" 1 (by decide) (by decide)
      (by decide)).1,
    (names_hint_masking.2.1 (initState { name := "France", borders := [] })).2.2
      rfl rfl,
    names_hint_masking.2.2⟩

/-- The initial zoom level of the map (`useState(2)`), reinstalled whenever
the target country changes. -/
def defaultZoom : ℚ := 2

/-- One zoom-in click: `Math.max(0.5, prev / 2)`. -/
def zoomInStep (z : ℚ) : ℚ := max (1 / 2) (z / 2)

/-- One zoom-out click: `Math.min(8, prev * 2)`. -/
def zoomOutStep (z : ℚ) : ℚ := min 8 (z * 2)

/-- The three events that can change the zoom state. -/
inductive ZoomEvent where
  | zoomInClick : ZoomEvent
  | zoomOutClick : ZoomEvent
  | targetChange : ZoomEvent

/-- The zoom state update: the two click handlers and the reset effect on a
target change. -/
def zoomStep (z : ℚ) : ZoomEvent → ℚ
  | ZoomEvent.zoomInClick => zoomInStep z
  | ZoomEvent.zoomOutClick => zoomOutStep z
  | ZoomEvent.targetChange => defaultZoom

/-- Zoom levels reachable from the initial state by any event sequence. -/
def zoomReachable (z : ℚ) : Prop :=
  ∃ l : List ZoomEvent, z = l.foldl zoomStep defaultZoom

/-- C10.  The zoom factor only ever takes values in `[0.5, 8]`: zoom-in
halves it clamped below at 0.5, zoom-out doubles it clamped above at 8, and
a target change resets it to the default 2. -/
theorem zoom_factor_bounds :
    (∀ z : ℚ, zoomReachable z → 1 / 2 ≤ z ∧ z ≤ 8) ∧
      (∀ z : ℚ, zoomStep z ZoomEvent.zoomInClick = max (1 / 2) (z / 2) ∧
        zoomStep z ZoomEvent.zoomOutClick = min 8 (z * 2) ∧
        zoomStep z ZoomEvent.targetChange = defaultZoom) ∧
      defaultZoom = 2 := by
  refine ⟨?_, fun z => ⟨rfl, rfl, rfl⟩, rfl⟩
  have hstep : ∀ (z : ℚ) (e : ZoomEvent), 1 / 2 ≤ z ∧ z ≤ 8 →
      1 / 2 ≤ zoomStep z e ∧ zoomStep z e ≤ 8 := by
    rintro z e ⟨hl, hu⟩
    cases e with
    | zoomInClick =>
        constructor
        · exact le_max_left _ _
        · rw [zoomStep, zoomInStep]
          apply max_le (by norm_num)
          linarith
    | zoomOutClick =>
        constructor
        · rw [zoomStep, zoomOutStep]
          apply le_min (by norm_num)
          linarith
        · exact min_le_left _ _
    | targetChange =>
        constructor <;> norm_num [zoomStep, defaultZoom]
  have main : ∀ (l : List ZoomEvent) (z : ℚ), 1 / 2 ≤ z ∧ z ≤ 8 →
      1 / 2 ≤ l.foldl zoomStep z ∧ l.foldl zoomStep z ≤ 8 := by
    intro l
    induction l with
    | nil => intro z hz; simpa using hz
    | cons e l ih =>
        intro z hz
        simpa using ih (zoomStep z e) (hstep z e hz)
  rintro z ⟨l, rfl⟩
  exact main l defaultZoom (by norm_num [defaultZoom])

/-- C10 witness: the initial zoom level is within the bounds. -/
theorem zoom_factor_bounds_witness :
    1 / 2 ≤ defaultZoom ∧ defaultZoom ≤ 8 :=
  zoom_factor_bounds.1 defaultZoom ⟨[], rfl⟩

/-- One entry of the `translatedCountries` array handed to Fuse: the
canonical catalog name and its localized display name. -/
structure TranslatedCountry where
  original : String
  translated : String

/-- The shape of the options object handed to the Fuse constructor. -/
structure FuseOptions where
  keys : List String
  threshold : ℚ
  distance : Nat
  minMatchCharLength : Nat

/-- The literal options object from `useCountryTranslation.ts`:
`{ keys: ["translated"], threshold: 0.3, distance: 100, minMatchCharLength: 2 }`. -/
def fuseOptions : FuseOptions :=
  { keys := ["translated"]
    threshold := 3 / 10
    distance := 100
    minMatchCharLength := 2 }

/-- Embedding of JavaScript `String.prototype.trim`: strip leading and
trailing whitespace (kernel-computable form). -/
def trimStr (s : String) : String :=
  ⟨((s.data.dropWhile Char.isWhitespace).reverse.dropWhile Char.isWhitespace).reverse⟩

/-- Embedding of `searchCountries` from `useCountryTranslation.ts`: an empty
(all-whitespace) query yields `[]`; otherwise the Fuse engine is queried with
limit 8 and the hits are mapped back to their canonical names.  Fuse.js is a
third-party collaborator, so the engine (already configured with
`fuseOptions`) is a parameter. -/
def searchCountries (fuseSearch : String → Nat → List TranslatedCountry)
    (query : String) : List String :=
  if trimStr query = "" then []
  else (fuseSearch query 8).map TranslatedCountry.original

/-- C7 counterexample: `searchCountries` contains no alias/abbreviation
matching step — with a fuzzy engine that returns no hit for "UK" (which the
configured `minMatchCharLength := 2` and threshold permit), the United
Kingdom does not appear; and the configuration requires two matched
characters, not one. -/
theorem search_no_alias_counterexample :
    ("United Kingdom" ∈ searchCountries (fun _ _ => []) "UK" → False) ∧
      fuseOptions.minMatchCharLength = 2 := by
  refine ⟨fun h => ?_, rfl⟩
  revert h
  decide

/-- C7 amended.  `searchCountries` performs no exact alias matching and no
prepending: for a non-blank query its result is exactly the canonical names
of the Fuse hits (limit 8) in engine order, a blank query gives `[]`, and
the engine is configured with threshold 0.3, distance 100 and
`minMatchCharLength` 2 (so one matched character is not sufficient). -/
theorem search_is_fuse_passthrough :
    ∀ (fuseSearch : String → Nat → List TranslatedCountry) (query : String),
      (trimStr query = "" → searchCountries fuseSearch query = []) ∧
        (¬ trimStr query = "" → searchCountries fuseSearch query =
          (fuseSearch query 8).map TranslatedCountry.original) ∧
        fuseOptions.minMatchCharLength = 2 ∧
        fuseOptions.threshold = 3 / 10 ∧
        fuseOptions.distance = 100 ∧
        fuseOptions.keys = ["translated"] := by
  intro fuseSearch query
  refine ⟨fun h => by simp [searchCountries, h], fun h => by simp [searchCountries, h],
    rfl, rfl, rfl, rfl⟩

/-- C7 witness: a one-hit engine on the query "Gremany". -/
theorem search_is_fuse_passthrough_witness :
    searchCountries (fun _ _ => [{ original := "Germany", translated := "Germany" }])
        "Gremany" = ["Germany"] := by
  have h := (search_is_fuse_passthrough
    (fun _ _ => [{ original := "Germany", translated := "Germany" }]) "Gremany").2.1
    (by decide)
  simpa using h

/-- Embedding of `projectCoordinate` from `CountryMap.tsx`: the
equirectangular projection with an optional longitude offset (the JavaScript
default for `lonOffset` is 0). -/
def projectCoordinate (lon lat lonOffset : ℚ) : ℚ × ℚ :=
  let adjustedLon := lon + lonOffset
  ((adjustedLon + 180) * (800 / 360), (90 - lat) * (400 / 180))

/-- Embedding of `crossesAntimeridian`: some pair of consecutive points
differs in longitude by more than 180 degrees. -/
def crossesAntimeridian (coords : List (ℚ × ℚ)) : Bool :=
  (coords.zip coords.tail).any (fun q => decide (180 < |q.2.1 - q.1.1|))

/-- The `points` computation inside `coordsToPath`: in an
antimeridian-crossing ring every point with negative longitude is projected
with a +360 degree shift, all other points are projected unshifted. -/
def projectedPoints (coords : List (ℚ × ℚ)) : List (ℚ × ℚ) :=
  let crosses := crossesAntimeridian coords
  coords.map (fun p =>
    if crosses = true ∧ p.1 < 0 then projectCoordinate p.1 p.2 360
    else projectCoordinate p.1 p.2 0)

/-- The antimeridian test ring of the spec:
`(179,10), (-179,10), (-179,-10), (179,-10)`. -/
def testRing : List (ℚ × ℚ) :=
  [(179, 10), (-179, 10), (-179, -10), (179, -10)]

lemma crosses_testRing : crossesAntimeridian testRing = true := by
  have habs : |(-179 : ℚ) - 179| = 358 := by
    rw [show ((-179 : ℚ) - 179) = -(358 : ℚ) by norm_num, abs_neg]
    exact abs_of_nonneg (by norm_num)
  simp [crossesAntimeridian, testRing, habs]
  norm_num

/-- C8.  In an antimeridian-crossing ring every negative-longitude point is
shifted by +360 degrees before the equirectangular projection, and the
spec's test ring projects to a quadrilateral of width 40/9 map units — far
from spanning the 800-unit map width. -/
theorem antimeridian_projection :
    (∀ coords : List (ℚ × ℚ), crossesAntimeridian coords = true →
      projectedPoints coords = coords.map (fun p =>
        if p.1 < 0 then projectCoordinate p.1 p.2 360
        else projectCoordinate p.1 p.2 0)) ∧
      crossesAntimeridian testRing = true ∧
      projectedPoints testRing =
        [(7180 / 9, 1600 / 9), (7220 / 9, 1600 / 9),
         (7220 / 9, 2000 / 9), (7180 / 9, 2000 / 9)] ∧
      (∀ p ∈ projectedPoints testRing,
        7180 / 9 ≤ p.1 ∧ p.1 ≤ 7180 / 9 + 40 / 9) ∧
      (40 : ℚ) / 9 < 800 := by
  have hgen : ∀ coords : List (ℚ × ℚ), crossesAntimeridian coords = true →
      projectedPoints coords = coords.map (fun p =>
        if p.1 < 0 then projectCoordinate p.1 p.2 360
        else projectCoordinate p.1 p.2 0) := by
    intro coords h
    simp only [projectedPoints, h, true_and]
  have hpts : projectedPoints testRing =
      [(7180 / 9, 1600 / 9), (7220 / 9, 1600 / 9),
       (7220 / 9, 2000 / 9), (7180 / 9, 2000 / 9)] := by
    rw [hgen testRing crosses_testRing]
    simp only [testRing, List.map_cons, List.map_nil, projectCoordinate]
    norm_num
  refine ⟨hgen, crosses_testRing, hpts, ?_, by norm_num⟩
  rw [hpts]
  intro p hp
  simp only [List.mem_cons, List.not_mem_nil, or_false] at hp
  rcases hp with rfl | rfl | rfl | rfl <;> constructor <;> norm_num

/-- C8 witness: the general shifting law applied to the test ring. -/
theorem antimeridian_projection_witness :
    projectedPoints testRing = testRing.map (fun p =>
      if p.1 < 0 then projectCoordinate p.1 p.2 360
      else projectCoordinate p.1 p.2 0) :=
  antimeridian_projection.1 testRing crosses_testRing

/-- Round-to-nearest, ties-to-even, at 53 significant bits for a natural
number `n ≥ 2^53`: the representable doubles around `n` are the multiples of
`2 ^ (log2 n - 52)`. -/
def rne53 (n : Nat) : Nat :=
  let k := Nat.log 2 n - 52
  let q := n / 2 ^ k
  let r := n % 2 ^ k
  (if 2 ^ (k - 1) < r ∨ (r = 2 ^ (k - 1) ∧ q % 2 = 1) then q + 1 else q) * 2 ^ k

/-- IEEE-754 double rounding of a nonnegative integer (the values appearing
in the generator stay far below the double overflow threshold `2^1024`):
integers below `2^53` are exact, larger ones round to 53 significant bits. -/
def fl (n : Nat) : Nat := if n < 2 ^ 53 then n else rne53 n

lemma fl_small {n : Nat} (h : n < 2 ^ 53) : fl n = n := if_pos h

lemma fl_big {n : Nat} (h : 2 ^ 53 ≤ n) : 2 ∣ fl n ∧ 2 ^ 53 ≤ fl n := by
  have hn0 : n ≠ 0 := by positivity
  have hlog : 53 ≤ Nat.log 2 n :=
    (Nat.pow_le_iff_le_log (by norm_num) hn0).mp h
  have hfl : fl n = rne53 n := if_neg (by omega)
  rw [hfl, rne53]
  set k := Nat.log 2 n - 52 with hk
  have hk1 : 1 ≤ k := by omega
  have hpow : 2 ^ (52 + k) ≤ n := by
    have h52 : 52 + k = Nat.log 2 n := by omega
    rw [h52]
    exact Nat.pow_log_le_self 2 hn0
  have hq : 2 ^ 52 ≤ n / 2 ^ k := by
    rw [Nat.le_div_iff_mul_le (Nat.pos_pow_of_pos k (by norm_num))]
    calc 2 ^ 52 * 2 ^ k = 2 ^ (52 + k) := by rw [pow_add]
    _ ≤ n := hpow
  constructor
  · have h2k : 2 ∣ 2 ^ k := dvd_pow_self 2 (by omega)
    exact Dvd.dvd.mul_left h2k _
  · have hge : n / 2 ^ k ≤ (if 2 ^ (k - 1) < n % 2 ^ k ∨
        (n % 2 ^ k = 2 ^ (k - 1) ∧ n / 2 ^ k % 2 = 1) then n / 2 ^ k + 1
      else n / 2 ^ k) := by split <;> omega
    calc (2 : Nat) ^ 53 = 2 ^ 52 * 2 ^ 1 := by norm_num
    _ ≤ (n / 2 ^ k) * 2 ^ k := by
        apply Nat.mul_le_mul hq
        exact Nat.pow_le_pow_right (by norm_num) hk1
    _ ≤ _ := Nat.mul_le_mul_right _ hge

/-- One step of `seededRandom`'s closure:
`seed = (seed * 1103515245 + 12345) & 0x7fffffff` in JavaScript doubles.  The
multiplication and the addition round through `fl`; `ToInt32` followed by the
`& 0x7fffffff` mask keeps the low 31 bits of the integer, i.e. reduction
modulo `2^31 = 2147483648`. -/
def lcgNext (seed : Nat) : Nat :=
  fl (fl (seed * 1103515245) + 12345) % 2147483648

/-- The value returned by one call of the generator:
`seed / 0x7fffffff` with the updated seed, as an exact rational. -/
def seededRandomValue (seed : Nat) : ℚ :=
  (lcgNext seed : ℚ) / 2147483647

/-- The index computed by `getRandomCountry`:
`Math.floor(random() * validCountries.length)`. -/
def randomIndex (seed : Nat) (len : Nat) : Nat :=
  ⌊seededRandomValue seed * len⌋₊

/-- Embedding of `getRandomCountry`: filter the catalog to countries with at
least two borders and index the filtered list with the seeded random index
(an out-of-range JavaScript access yields `undefined`, i.e. `none`).  The
catalog (`src/data/countries.ts`, data not in the sources) and the
`Date.now()` seed are parameters. -/
def getRandomCountry (catalog : List Country) (seed : Nat) : Option Country :=
  let validCountries := catalog.filter (fun c => 2 ≤ c.borders.length)
  validCountries.get? (randomIndex seed validCountries.length)

/-- Embedding of `startGame`: draw a country and install the fresh state. -/
def startGame (catalog : List Country) (seed : Nat) : Option GameState :=
  (getRandomCountry catalog seed).map initState

lemma lcg_exact_small {seed : Nat} (h : seed * 1103515245 + 12345 < 2 ^ 53) :
    lcgNext seed = (seed * 1103515245 + 12345) % 2147483648 := by
  rw [lcgNext, fl_small (show seed * 1103515245 < 2 ^ 53 by omega), fl_small h]

lemma lcg_lt (seed : Nat) : lcgNext seed < 2147483648 :=
  Nat.mod_lt _ (by norm_num)

/-- The masked seed can never be `0x7fffffff` itself: for small seeds the
arithmetic is exact and the unique bad residue 230538014 lies outside the
exact range, while for large seeds the rounded sum is a multiple of a
positive power of two, hence even, and `0x7fffffff` is odd. -/
lemma lcg_ne_max (seed : Nat) : lcgNext seed ≠ 2147483647 := by
  by_cases hA : seed * 1103515245 + 12345 < 2 ^ 53
  · rw [lcg_exact_small hA]
    have hA' : seed * 1103515245 + 12345 < 9007199254740992 := by omega
    clear hA
    intro hc
    have h1 : Nat.ModEq 2147483648 (seed * 1103515245 + 12345) 2147483647 := by
      unfold Nat.ModEq
      rw [hc]
    have h2 := h1.mul_left 1857678181
    have heq : 1857678181 * (seed * 1103515245 + 12345) =
        (1857678181 * 1103515245) * seed + 1857678181 * 12345 := by ring
    rw [heq] at h2
    have h3 : Nat.ModEq 2147483648 (1857678181 * 1103515245) 1 := by decide
    have h4 := (h3.mul_right seed).add_right (1857678181 * 12345)
    have h6 : Nat.ModEq 2147483648 (1 * seed + 1857678181 * 12345)
        (1857678181 * 2147483647) := h4.symm.trans h2
    have h7 : (1 * seed + 1857678181 * 12345) % 2147483648 =
        (1857678181 * 2147483647) % 2147483648 := h6
    clear h1 h2 h3 h4 h6 heq hc
    omega
  · have houter : 2 ^ 53 ≤ fl (seed * 1103515245) + 12345 := by
      by_cases hB : seed * 1103515245 < 2 ^ 53
      · rw [fl_small hB]
        omega
      · have := (fl_big (le_of_not_lt hB)).2
        omega
    have heven : 2 ∣ fl (fl (seed * 1103515245) + 12345) :=
      (fl_big houter).1
    clear hA houter
    intro hc
    rw [lcgNext] at hc
    omega

/-- C6.  Every value the generator produces lies in `[0, 1)`; hence for a
nonempty filtered catalog the computed index is strictly below its length
and `getRandomCountry` always yields a defined country. -/
theorem random_value_in_unit_range :
    (∀ seed : Nat, 0 ≤ seededRandomValue seed ∧ seededRandomValue seed < 1) ∧
      (∀ (catalog : List Country) (seed : Nat),
        0 < (catalog.filter (fun c => 2 ≤ c.borders.length)).length →
          randomIndex seed (catalog.filter (fun c => 2 ≤ c.borders.length)).length <
              (catalog.filter (fun c => 2 ≤ c.borders.length)).length ∧
            (getRandomCountry catalog seed).isSome = true) := by
  have hval : ∀ seed : Nat, 0 ≤ seededRandomValue seed ∧ seededRandomValue seed < 1 := by
    intro seed
    refine ⟨by unfold seededRandomValue; positivity, ?_⟩
    unfold seededRandomValue
    rw [div_lt_one (by norm_num)]
    have h1 := lcg_lt seed
    have h2 := lcg_ne_max seed
    have h3 : lcgNext seed < 2147483647 := by omega
    exact_mod_cast h3
  have hidx : ∀ (seed len : Nat), 0 < len → randomIndex seed len < len := by
    intro seed len hpos
    unfold randomIndex
    have hnn : (0 : ℚ) ≤ seededRandomValue seed * len := by
      have h0 := (hval seed).1
      positivity
    rw [Nat.floor_lt hnn]
    have hv := (hval seed).2
    have hmul : seededRandomValue seed * (len : ℚ) < 1 * len :=
      mul_lt_mul_of_pos_right hv (by exact_mod_cast hpos)
    simpa using hmul
  refine ⟨hval, fun catalog seed hpos => ⟨hidx seed _ hpos, ?_⟩⟩
  simp only [getRandomCountry]
  rw [List.get?_eq_get (hidx seed _ hpos)]
  rfl

/-- C6 witness: a one-country catalog and seed 0. -/
theorem random_value_in_unit_range_witness :
    randomIndex 0
        ([({ name := "France"
             borders := ["Belgium", "Germany", "Italy", "Luxembourg", "Monaco",
                         "Spain", "Switzerland"] } : Country)].filter
          (fun c => 2 ≤ c.borders.length)).length <
        ([({ name := "France"
             borders := ["Belgium", "Germany", "Italy", "Luxembourg", "Monaco",
                         "Spain", "Switzerland"] } : Country)].filter
          (fun c => 2 ≤ c.borders.length)).length ∧
      (getRandomCountry
        [({ name := "France"
            borders := ["Belgium", "Germany", "Italy", "Luxembourg", "Monaco",
                        "Spain", "Switzerland"] } : Country)] 0).isSome = true :=
  random_value_in_unit_range.2
    [({ name := "France"
        borders := ["Belgium", "Germany", "Italy", "Luxembourg", "Monaco",
                    "Spain", "Switzerland"] } : Country)] 0 (by decide)

lemma randomIndex_eq (seed len : Nat) :
    randomIndex seed len = lcgNext seed * len / 2147483647 := by
  unfold randomIndex seededRandomValue
  rw [div_mul_eq_mul_div, ← Nat.cast_mul,
    show ((2147483647 : ℚ)) = ((2147483647 : Nat) : ℚ) by norm_cast]
  exact Nat.floor_div_eq_div _ _

/-- The exact-arithmetic seeds `541 * j` step the masked LCG output by
`541 * 1103515245 mod 2^31 = 1293401` per unit of `j`, which is fine enough
to land in any index band of a list of at most 1000 entries. -/
lemma lcg_hits (len i : Nat) (hlen : 0 < len) (hcap : len ≤ 1000)
    (hi : i < len) : ∃ seed : Nat, lcgNext seed * len / 2147483647 = i := by
  have main : ∀ u r : Nat, len * u + r = i * 2147483647 → r < len →
      ∃ seed : Nat, lcgNext seed * len / 2147483647 = i := by
    intro u r hur hrlt
    have hP : (u + 1) * len = len * u + len := by ring
    have hf1 : i * 2147483647 < (u + 1) * len := by omega
    have hf2 : (u + 1) * len ≤ i * 2147483647 + len := by omega
    have hup : (u + 1) + 1293401 < 2147483648 := by
      by_contra hcon
      have h1 : 2146190247 ≤ u + 1 := by omega
      have h2 : 2146190247 * len ≤ (u + 1) * len := Nat.mul_le_mul_right len h1
      have h3 : (i + 1) * 2147483647 ≤ len * 2147483647 :=
        Nat.mul_le_mul_right 2147483647 (by omega)
      have h4 := le_trans h2 hf2
      have h5 : (i + 1) * 2147483647 = i * 2147483647 + 2147483647 := by ring
      omega
    obtain ⟨j, hj⟩ : ∃ j : Nat,
        j = (2147483648 + (u + 1) - 12345 + 1293400) / 1293401 := ⟨_, rfl⟩
    obtain ⟨X, hX⟩ : ∃ X : Nat, X = 12345 + j * 1293401 - 2147483648 := ⟨_, rfl⟩
    have hXfacts : u + 1 ≤ X ∧ X < (u + 1) + 1293401 ∧ X < 2147483648 ∧
        12345 + j * 1293401 = X + 2147483648 ∧ j ≤ 3322 := by omega
    obtain ⟨hXlo, hXup, hXN, hXeq, hj3322⟩ := hXfacts
    refine ⟨541 * j, ?_⟩
    have hK : 541 * j * 1103515245 = j * 597001747545 := by ring
    have hsmall : 541 * j * 1103515245 + 12345 < 2 ^ 53 := by
      rw [hK]
      omega
    have hstep : lcgNext (541 * j) = X := by
      rw [lcg_exact_small hsmall, hK]
      omega
    rw [hstep]
    have hPX : (u + 1) * len ≤ X * len := Nat.mul_le_mul_right len hXlo
    have hXub : X * len ≤ (u + 1) * len + 1293400 * len := by
      have hXle : X ≤ (u + 1) + 1293400 := by omega
      have hmul := Nat.mul_le_mul_right len hXle
      have hexp : ((u + 1) + 1293400) * len = (u + 1) * len + 1293400 * len := by
        ring
      omega
    omega
  exact main (i * 2147483647 / len) (i * 2147483647 % len)
    (Nat.div_add_mod _ _) (Nat.mod_lt _ hlen)

/-- C5.  `getRandomCountry` never yields a country with fewer than two
borders; every catalog country with at least two borders is selected by some
wall-clock seed (for any catalog whose filtered list has at most 1000
entries, which covers the game's ~150-country catalog); and the state
`startGame` installs has an empty guess log, no correct guesses, zero wrong
guesses, and `gameOver = won = false`. -/
theorem start_game_selection :
    (∀ (catalog : List Country) (seed : Nat) (ctry : Country),
        getRandomCountry catalog seed = some ctry → 2 ≤ ctry.borders.length) ∧
      (∀ (catalog : List Country) (ctry : Country), ctry ∈ catalog →
        2 ≤ ctry.borders.length →
        (catalog.filter (fun c => 2 ≤ c.borders.length)).length ≤ 1000 →
        ∃ seed : Nat, getRandomCountry catalog seed = some ctry) ∧
      (∀ (catalog : List Country) (seed : Nat) (s : GameState),
        startGame catalog seed = some s →
          s.guesses = [] ∧ s.correctGuesses = [] ∧ s.wrongGuesses = 0 ∧
            s.gameOver = false ∧ s.won = false) := by
  refine ⟨?_, ?_, ?_⟩
  · intro catalog seed ctry h
    simp only [getRandomCountry] at h
    have hc := List.get?_mem h
    have hm := List.mem_filter.mp hc
    simpa using hm.2
  · intro catalog ctry hmem hb hcap
    have hmemf : ctry ∈ catalog.filter (fun c => 2 ≤ c.borders.length) :=
      List.mem_filter.mpr ⟨hmem, by simpa using hb⟩
    obtain ⟨idx, hidx⟩ := List.mem_iff_get?.mp hmemf
    have hlt : idx < (catalog.filter (fun c => 2 ≤ c.borders.length)).length := by
      rcases List.get?_eq_some.mp hidx with ⟨hlt, _⟩
      exact hlt
    have hlen0 : 0 < (catalog.filter (fun c => 2 ≤ c.borders.length)).length := by
      omega
    obtain ⟨seed, hseed⟩ := lcg_hits _ idx hlen0 hcap hlt
    refine ⟨seed, ?_⟩
    simp only [getRandomCountry]
    rw [randomIndex_eq, hseed]
    exact hidx
  · intro catalog seed s h
    rw [startGame, Option.map_eq_some'] at h
    obtain ⟨ctry, _, rfl⟩ := h
    exact ⟨rfl, rfl, rfl, rfl, rfl⟩

/-- C5 witness: France can be drawn from a one-country catalog. -/
theorem start_game_selection_witness :
    ∃ seed : Nat,
      getRandomCountry
        [({ name := "France"
            borders := ["Belgium", "Germany", "Italy", "Luxembourg", "Monaco",
                        "Spain", "Switzerland"] } : Country)] seed =
        some ({ name := "France"
                borders := ["Belgium", "Germany", "Italy", "Luxembourg",
                            "Monaco", "Spain", "Switzerland"] } : Country) :=
  start_game_selection.2.1
    [({ name := "France"
        borders := ["Belgium", "Germany", "Italy", "Luxembourg", "Monaco",
                    "Spain", "Switzerland"] } : Country)]
    ({ name := "France"
       borders := ["Belgium", "Germany", "Italy", "Luxembourg", "Monaco",
                   "Spain", "Switzerland"] } : Country)
    (by decide) (by decide) (by decide)
